import Mathlib

/-!
Shallow embedding of the wordle-star core (src/guess.rs, src/keyboard_view.rs,
src/dictionary.rs, src/game.rs).  Words are modelled as `List Char` (the Rust
code only ever views a `String` through `chars()`); position sets
(`HashSet<usize>`) are modelled as the ascending duplicate-free lists obtained
by filtering `List.range`; the `HashMap<char, CharState>` of the keyboard view
is modelled as an association list.  Rust panics are modelled as
`Except.error`.  `compute_guess_result` iterates over the distinct characters
of the target (the keys of `target_char_indexes`); the HashMap iteration order
is arbitrary in Rust, but each character's step writes only positions holding
that character in the guess, so the writes of distinct characters are at
disjoint positions and any fixed enumeration of the distinct characters is a
faithful model; we use `List.dedup`.
-/

set_option maxHeartbeats 1000000

/-- `CharState` from src/guess.rs: discriminants 1, 2, 3 give the derived
`Ord` order NotFound < IncorrectPosition < CorrectPosition. -/
inductive CharState where
  | NotFound
  | IncorrectPosition
  | CorrectPosition
deriving DecidableEq, Repr

/-- The discriminant of the Rust enum; the derived `Ord` compares these. -/
def CharState.toNat : CharState → Nat
  | .NotFound => 1
  | .IncorrectPosition => 2
  | .CorrectPosition => 3

/-- `cmp::max` on `CharState` (returns the second argument on ties, as in Rust). -/
def CharState.max (a b : CharState) : CharState :=
  if b.toNat < a.toNat then a else b

/-- `CharGuess` from src/guess.rs. -/
abbrev CharGuess := Char × CharState

/-- `GuessResult` from src/guess.rs. -/
structure GuessResult where
  char_guesses : List CharGuess
deriving DecidableEq, Repr

/-- `GuessResult::is_correct`. -/
def GuessResult.is_correct (r : GuessResult) : Bool :=
  r.char_guesses.all (fun c => c.2 = CharState.CorrectPosition)

/-- `Dictionary` from src/dictionary.rs (the `HashSet<String>` word set as a
list with membership semantics). -/
structure Dictionary where
  wordset : List (List Char)
  word_length : Nat

/-- `Dictionary::contains`: exact (character-for-character) membership. -/
def Dictionary.contains (d : Dictionary) (word : List Char) : Bool :=
  d.wordset.contains word

/-- `KeyboardView` from src/keyboard_view.rs; the `HashMap<char, CharState>`
keymap as an association list. -/
structure KeyboardView where
  keymap : List (Char × CharState)
deriving DecidableEq, Repr

/-- `HashMap::insert`: replace the binding of `ch` if present, else add it. -/
def assocInsert (m : List (Char × CharState)) (ch : Char) (s : CharState) :
    List (Char × CharState) :=
  match m with
  | [] => [(ch, s)]
  | (k, v) :: rest =>
    if k = ch then (ch, s) :: rest else (k, v) :: assocInsert rest ch s

/-- `KeyboardView::get`. -/
def KeyboardView.get (kv : KeyboardView) (ch : Char) : Option CharState :=
  (kv.keymap.find? (fun p => p.1 = ch)).map (fun p => p.2)

/-- `KeyboardView::record_guess`.  The Rust code panics (modelled as
`Except.error`) exactly when the recorded state is `NotFound` and the new
state differs from it; otherwise it records `cmp::max` of the two states. -/
def KeyboardView.record_guess (kv : KeyboardView) (char_guess : CharGuess) :
    Except String KeyboardView :=
  match kv.get char_guess.1 with
  | none => .ok ⟨assocInsert kv.keymap char_guess.1 char_guess.2⟩
  | some current_state =>
    if current_state = CharState.NotFound ∧ current_state ≠ char_guess.2 then
      .error "invalid state"
    else
      .ok ⟨assocInsert kv.keymap char_guess.1 (current_state.max char_guess.2)⟩

/-- The loop in `Game::guess_word` that records every `CharGuess` of a result
into the keyboard view, propagating the panic. -/
def recordAll (kv : KeyboardView) (cgs : List CharGuess) :
    Except String KeyboardView :=
  match cgs with
  | [] => .ok kv
  | cg :: rest =>
    match kv.record_guess cg with
    | .error e => .error e
    | .ok kv2 => recordAll kv2 rest

/-- The set of positions of character `c` in `w`
(`Game::compute_char_positions_map` restricted to one character), as the
ascending list of indices. -/
def char_positions (w : List Char) (c : Char) : List Nat :=
  (List.range w.length).filter (fun i => decide (w[i]? = some c))

/-- Write `cg` at every position in `ps` (the marking loops of
`Game::compute_guess_result`; every written position carries the character
being processed, so the write order within `ps` is immaterial). -/
def setPositions (acc : List CharGuess) (ps : List Nat) (cg : CharGuess) :
    List CharGuess :=
  ps.foldl (fun a p => a.set p cg) acc

/-- The body of the per-character loop of `Game::compute_guess_result`:
mark the guess/target intersection CorrectPosition, then mark the first
`min(extra, |diff|)` positions of the sorted difference IncorrectPosition. -/
def applyChar (target word : List Char) (acc : List CharGuess) (c : Char) :
    List CharGuess :=
  let target_positions := char_positions target c
  let guess_positions := char_positions word c
  if guess_positions.isEmpty then acc
  else
    let intersection :=
      guess_positions.filter (fun p => decide (p ∈ target_positions))
    let acc1 := setPositions acc intersection (c, CharState.CorrectPosition)
    let extra_count := target_positions.length - intersection.length
    let sorted_diff :=
      guess_positions.filter (fun p => decide (p ∉ target_positions))
    if extra_count > 0 then
      let trimmed_length := min extra_count sorted_diff.length
      setPositions acc1 (sorted_diff.take trimmed_length)
        (c, CharState.IncorrectPosition)
    else acc1

/-- `Game::compute_guess_result`: initialise every position to
`(word[i], NotFound)`, then run the per-character marking for each distinct
character of the target. -/
def compute_guess_result (target word : List Char) : GuessResult :=
  ⟨(target.dedup).foldl (applyChar target word)
      (word.map (fun ch => (ch, CharState.NotFound)))⟩

/-- `GameState` from src/game.rs. -/
inductive GameState where
  | Playing
  | Win
  | Lose
deriving DecidableEq, Repr

/-- `Game` from src/game.rs (`target_char_indexes` is derived from
`target_word` and is recomputed where needed). -/
structure Game where
  dict : Dictionary
  target_word : List Char
  max_guesses : Nat
  keyboard_view : KeyboardView
  guess_results : List GuessResult
  state : GameState

/-- `Game::new`: panics (modelled as `Except.error`) when the target word is
not in the dictionary. -/
def Game.new (dict : Dictionary) (target_word : List Char) (max_guesses : Nat) :
    Except String Game :=
  if dict.contains target_word then
    .ok { dict := dict, target_word := target_word, max_guesses := max_guesses,
          keyboard_view := ⟨[]⟩, guess_results := [], state := .Playing }
  else
    .error "target word not present in dictionary"

/-- A three-letter dictionary {xoo, ooo}: the scenario in which the keyboard
assertion fires on legitimate evaluator output. -/
def xooDict : Dictionary := ⟨[['x','o','o'], ['o','o','o']], 3⟩

/-- The fresh session `Game::new(xooDict, "xoo", 6)` constructs. -/
def xooGame : Game :=
  { dict := xooDict, target_word := ['x','o','o'], max_guesses := 6,
    keyboard_view := ⟨[]⟩, guess_results := [], state := GameState.Playing }

/-- A three-letter dictionary {rat, dog} for concrete sessions. -/
def ratDict : Dictionary := ⟨[['r','a','t'], ['d','o','g']], 3⟩

/-- A fresh session with target "dog" and two attempts. -/
def dogGame : Game :=
  { dict := ratDict, target_word := ['d','o','g'], max_guesses := 2,
    keyboard_view := ⟨[]⟩, guess_results := [], state := GameState.Playing }

/-- The result of guessing "rat" against "dog": no common characters. -/
def ratResult : GuessResult :=
  ⟨[('r', CharState.NotFound), ('a', CharState.NotFound),
    ('t', CharState.NotFound)]⟩

/-- `dogGame` after the accepted guess "rat". -/
def dogGameAfterRat : Game :=
  { dict := ratDict, target_word := ['d','o','g'], max_guesses := 2,
    keyboard_view := ⟨[('r', CharState.NotFound), ('a', CharState.NotFound),
      ('t', CharState.NotFound)]⟩,
    guess_results := [ratResult], state := GameState.Playing }

/-- A session already in the Win state. -/
def wonGame : Game :=
  { dict := ratDict, target_word := ['d','o','g'], max_guesses := 2,
    keyboard_view := ⟨[]⟩, guess_results := [], state := GameState.Win }

/-- The game after an accepted guess, before the win/lose update: keyboard
view replaced and the result appended to the history (the mutations of
`Game::guess_word` up to the state update). -/
def afterGuess (g : Game) (kv : KeyboardView) (res : GuessResult) : Game :=
  { g with keyboard_view := kv, guess_results := g.guess_results ++ [res] }

/-- `Game::allow_more_guesses`. -/
def Game.allow_more_guesses (g : Game) : Bool :=
  decide (g.guess_results.length < g.max_guesses) &&
    decide (g.state = GameState.Playing)

/-- `Game::guess_word`.  The panic on exhausted attempts and the keyboard
panic are both `Except.error`; a non-dictionary word yields `.ok (none, g)`
with the game unchanged; an accepted word yields the result and the updated
game. -/
def Game.guess_word (g : Game) (word : List Char) :
    Except String (Option GuessResult × Game) :=
  if g.allow_more_guesses then
    if g.dict.contains word then
      let guess_result := compute_guess_result g.target_word word
      match recordAll g.keyboard_view guess_result.char_guesses with
      | .error e => .error e
      | .ok kv =>
        let g1 : Game :=
          { g with keyboard_view := kv,
                   guess_results := g.guess_results ++ [guess_result] }
        let g2 : Game :=
          if guess_result.is_correct then { g1 with state := .Win }
          else if ¬ g1.allow_more_guesses then { g1 with state := .Lose }
          else g1
        .ok (some guess_result, g2)
    else .ok (none, g)
  else .error "no more guesses allowed"

/-- `T_c ∩ G_c` of claim C1 / §4.2 of the spec, enumerated from the target
side (the spec writes the intersection with `T_c` first). -/
def specInter (target word : List Char) (c : Char) : List Nat :=
  (char_positions target c).filter (fun p => decide (p ∈ char_positions word c))

/-- `G_c \ T_c` of claim C1, in ascending position order. -/
def specDiff (target word : List Char) (c : Char) : List Nat :=
  (char_positions word c).filter (fun p => decide (p ∉ char_positions target c))

/-- `extra = |T_c| - |T_c ∩ G_c|` of claim C1. -/
def specExtra (target word : List Char) (c : Char) : Nat :=
  (char_positions target c).length - (specInter target word c).length

/-- The first `min(extra, |G_c \ T_c|)` positions of `G_c \ T_c` taken in
ascending position order (`specDiff` is ascending, so `take` selects them). -/
def specMisplaced (target word : List Char) (c : Char) : List Nat :=
  (specDiff target word c).take
    (min (specExtra target word c) (specDiff target word c).length)

/-- The per-position feedback state exactly as claim C1 / §4.2 of the spec
describe it, for a position `i` whose guess character is `c`:
CorrectPosition on `T_c ∩ G_c`; Misplaced on the first
`min(extra, |G_c \ T_c|)` positions of `G_c \ T_c` in ascending order;
the Absent (NotFound) default everywhere else. -/
def claimState (target word : List Char) (c : Char) (i : Nat) : CharState :=
  if i ∈ specInter target word c then CharState.CorrectPosition
  else if i ∈ specMisplaced target word c then CharState.IncorrectPosition
  else CharState.NotFound

/-- The guess/target intersection as `Game::compute_guess_result` computes it,
from the guess side (`guess_positions.intersection(&target_positions)`). -/
def interCode (target word : List Char) (c : Char) : List Nat :=
  (char_positions word c).filter (fun p => decide (p ∈ char_positions target c))

/-- `extra_count` of `Game::compute_guess_result`. -/
def extraCode (target word : List Char) (c : Char) : Nat :=
  (char_positions target c).length - (interCode target word c).length

/-- `sorted_diff[0..trimmed_length]` of `Game::compute_guess_result`
(`sorted_diff` has the same definition as `specDiff`). -/
def misplacedCode (target word : List Char) (c : Char) : List Nat :=
  (specDiff target word c).take
    (min (extraCode target word c) (specDiff target word c).length)

/-! ### Helper lemmas: positions, setPositions, applyChar -/

theorem mem_char_positions {w : List Char} {c : Char} {i : Nat} :
    i ∈ char_positions w c ↔ i < w.length ∧ w[i]? = some c := by
  simp [char_positions, List.mem_filter, List.mem_range]

theorem nodup_char_positions (w : List Char) (c : Char) :
    (char_positions w c).Nodup :=
  (List.nodup_range w.length).filter _

theorem char_positions_eq_nil {w : List Char} {c : Char} (h : c ∉ w) :
    char_positions w c = [] := by
  rw [List.eq_nil_iff_forall_not_mem]
  intro i hi
  rcases mem_char_positions.mp hi with ⟨_, hget⟩
  exact h (List.getElem?_mem hget)

theorem setPositions_nil (acc : List CharGuess) (cg : CharGuess) :
    setPositions acc [] cg = acc := rfl

theorem setPositions_cons (acc : List CharGuess) (p : Nat) (ps : List Nat)
    (cg : CharGuess) :
    setPositions acc (p :: ps) cg = setPositions (acc.set p cg) ps cg := rfl

theorem length_setPositions (ps : List Nat) (acc : List CharGuess)
    (cg : CharGuess) : (setPositions acc ps cg).length = acc.length := by
  induction ps generalizing acc with
  | nil => rfl
  | cons p ps ih => rw [setPositions_cons, ih, List.length_set]

theorem getElem?_setPositions (ps : List Nat) (acc : List CharGuess)
    (cg : CharGuess) (i : Nat) :
    (setPositions acc ps cg)[i]? =
      if i ∈ ps ∧ i < acc.length then some cg else acc[i]? := by
  induction ps generalizing acc with
  | nil => simp [setPositions_nil]
  | cons p ps ih =>
    rw [setPositions_cons, ih, List.length_set, List.getElem?_set]
    by_cases hlt : i < acc.length
    · by_cases hmem : i ∈ ps
      · simp [hmem, hlt, List.mem_cons]
      · by_cases hpi : p = i
        · subst hpi; simp [hmem, hlt, List.mem_cons]
        · have hip : ¬ i = p := fun h => hpi h.symm
          simp [hmem, hlt, hpi, hip, List.mem_cons]
    · have hnone : acc[i]? = none := List.getElem?_eq_none (Nat.le_of_not_lt hlt)
      by_cases hpi : p = i
      · subst hpi; simp [hlt, hnone]
      · simp [hlt, hpi, hnone]

theorem applyChar_eq (target word : List Char) (acc : List CharGuess)
    (c : Char) :
    applyChar target word acc c =
      if (char_positions word c).isEmpty then acc
      else if extraCode target word c > 0 then
        setPositions
          (setPositions acc (interCode target word c)
            (c, CharState.CorrectPosition))
          (misplacedCode target word c) (c, CharState.IncorrectPosition)
      else
        setPositions acc (interCode target word c)
          (c, CharState.CorrectPosition) := rfl

theorem length_applyChar (target word : List Char) (acc : List CharGuess)
    (c : Char) : (applyChar target word acc c).length = acc.length := by
  rw [applyChar_eq]
  split
  · rfl
  · split <;> simp [length_setPositions]

theorem getElem?_applyChar_ne (target word : List Char) (acc : List CharGuess)
    (c : Char) (i : Nat) (hi : ¬ word[i]? = some c) :
    (applyChar target word acc c)[i]? = acc[i]? := by
  have hGc : i ∉ char_positions word c := fun h =>
    hi (mem_char_positions.mp h).2
  have hint : i ∉ interCode target word c := fun h =>
    hGc (List.mem_filter.mp h).1
  have hmis : i ∉ misplacedCode target word c := fun h =>
    hGc (List.mem_filter.mp (List.take_subset _ _ h)).1
  rw [applyChar_eq]
  split
  · rfl
  · split <;>
      simp [getElem?_setPositions, hint, hmis]

theorem getElem?_applyChar_mem (target word : List Char) (acc : List CharGuess)
    (c : Char) (i : Nat) (hacc : acc.length = word.length)
    (hi : word[i]? = some c) :
    (applyChar target word acc c)[i]? =
      if target[i]? = some c then some (c, CharState.CorrectPosition)
      else if i ∈ misplacedCode target word c then
        some (c, CharState.IncorrectPosition)
      else acc[i]? := by
  have hlt : i < word.length := (List.getElem?_eq_some.mp hi).1
  have hGc : i ∈ char_positions word c := mem_char_positions.mpr ⟨hlt, hi⟩
  have hne : ¬ (char_positions word c).isEmpty = true := by
    rw [List.isEmpty_iff]
    exact List.ne_nil_of_mem hGc
  rw [applyChar_eq, if_neg hne]
  have hlta : i < acc.length := hacc ▸ hlt
  by_cases hT : target[i]? = some c
  · -- i is in the intersection, and cannot be in the misplaced positions
    have hTc : i ∈ char_positions target c :=
      mem_char_positions.mpr ⟨(List.getElem?_eq_some.mp hT).1, hT⟩
    have hint : i ∈ interCode target word c :=
      List.mem_filter.mpr ⟨hGc, by simp [hTc]⟩
    have hmis : i ∉ misplacedCode target word c := fun h => by
      have hd : i ∈ specDiff target word c := List.take_subset _ _ h
      exact absurd hTc (by simpa using (List.mem_filter.mp hd).2)
    have hset :
        (setPositions acc (interCode target word c)
            (c, CharState.CorrectPosition))[i]? =
          some (c, CharState.CorrectPosition) := by
      rw [getElem?_setPositions, if_pos ⟨hint, hlta⟩]
    rw [if_pos hT]
    split
    · rw [getElem?_setPositions, if_neg (fun h => hmis h.1), hset]
    · exact hset
  · have hTc : i ∉ char_positions target c := fun h =>
      hT (mem_char_positions.mp h).2
    have hint : i ∉ interCode target word c := fun h =>
      absurd hTc (by simpa using (List.mem_filter.mp h).2)
    have hset :
        (setPositions acc (interCode target word c)
            (c, CharState.CorrectPosition))[i]? = acc[i]? := by
      rw [getElem?_setPositions, if_neg (fun h => hint h.1)]
    rw [if_neg hT]
    by_cases hmis : i ∈ misplacedCode target word c
    · -- the extra count must be positive for the misplaced list to be nonempty
      have hpos : extraCode target word c > 0 := by
        by_contra hz
        have hnil : misplacedCode target word c = [] := by
          simp [misplacedCode, Nat.eq_zero_of_not_pos hz]
        rw [hnil] at hmis
        exact absurd hmis (List.not_mem_nil i)
      rw [if_pos hpos, if_pos hmis, getElem?_setPositions,
        if_pos ⟨hmis, by rw [length_setPositions]; exact hlta⟩]
    · rw [if_neg hmis]
      split
      · rw [getElem?_setPositions, if_neg (fun h => hmis h.1), hset]
      · exact hset

/-! ### The fold over the target's distinct characters -/

theorem length_foldl_applyChar (target word : List Char) (cs : List Char)
    (acc : List CharGuess) :
    (cs.foldl (applyChar target word) acc).length = acc.length := by
  induction cs generalizing acc with
  | nil => rfl
  | cons d cs ih => rw [List.foldl_cons, ih, length_applyChar]

theorem getElem?_foldl_applyChar_not_mem (target word : List Char)
    (cs : List Char) (i : Nat) (c : Char) (hi : word[i]? = some c) :
    ∀ acc : List CharGuess, c ∉ cs →
      (cs.foldl (applyChar target word) acc)[i]? = acc[i]? := by
  induction cs with
  | nil => intro acc _; rfl
  | cons d cs ih =>
    intro acc hc
    have hd : ¬ word[i]? = some d := by
      rw [hi]
      intro h
      injection h with h2
      exact hc (h2 ▸ List.mem_cons_self d cs)
    rw [List.foldl_cons, ih _ (fun h => hc (List.mem_cons_of_mem d h)),
      getElem?_applyChar_ne target word acc d i hd]

theorem getElem?_foldl_applyChar_mem (target word : List Char)
    (cs : List Char) (i : Nat) (c : Char) (hi : word[i]? = some c) :
    ∀ acc : List CharGuess, acc.length = word.length → cs.Nodup → c ∈ cs →
      (cs.foldl (applyChar target word) acc)[i]? =
        (if target[i]? = some c then some (c, CharState.CorrectPosition)
         else if i ∈ misplacedCode target word c then
           some (c, CharState.IncorrectPosition)
         else acc[i]?) := by
  induction cs with
  | nil => intro _ _ _ h; cases h
  | cons d cs ih =>
    intro acc hacc hnd hc
    rw [List.foldl_cons]
    by_cases hdc : d = c
    · subst hdc
      have hnotin : d ∉ cs := (List.nodup_cons.mp hnd).1
      rw [getElem?_foldl_applyChar_not_mem target word cs i d hi _ hnotin]
      exact getElem?_applyChar_mem target word acc d i hacc hi
    · have hcs : c ∈ cs := by
        rcases List.mem_cons.mp hc with h | h
        · exact absurd h.symm hdc
        · exact h
      have hd : ¬ word[i]? = some d := by
        rw [hi]
        intro h
        injection h with h2
        exact hdc h2.symm
      rw [ih (applyChar target word acc d)
          (by rw [length_applyChar]; exact hacc) (List.nodup_cons.mp hnd).2 hcs,
        getElem?_applyChar_ne target word acc d i hd]

/-! ### Relating the code's intersection-from-the-guess-side to the claim's -/

theorem mem_interCode {target word : List Char} {c : Char} {i : Nat} :
    i ∈ interCode target word c ↔
      i ∈ char_positions word c ∧ i ∈ char_positions target c := by
  simp [interCode, List.mem_filter]

theorem mem_specInter {target word : List Char} {c : Char} {i : Nat} :
    i ∈ specInter target word c ↔
      i ∈ char_positions target c ∧ i ∈ char_positions word c := by
  simp [specInter, List.mem_filter]

theorem length_specInter_eq_interCode (target word : List Char) (c : Char) :
    (specInter target word c).length = (interCode target word c).length := by
  have h1 : (specInter target word c).Nodup :=
    (nodup_char_positions target c).filter _
  have h2 : (interCode target word c).Nodup :=
    (nodup_char_positions word c).filter _
  apply Nat.le_antisymm
  · exact (h1.subperm (fun a ha =>
      mem_interCode.mpr ⟨(mem_specInter.mp ha).2, (mem_specInter.mp ha).1⟩)).length_le
  · exact (h2.subperm (fun a ha =>
      mem_specInter.mpr ⟨(mem_interCode.mp ha).2, (mem_interCode.mp ha).1⟩)).length_le

theorem extraCode_eq_specExtra (target word : List Char) (c : Char) :
    extraCode target word c = specExtra target word c := by
  rw [extraCode, specExtra, length_specInter_eq_interCode]

theorem misplacedCode_eq_specMisplaced (target word : List Char) (c : Char) :
    misplacedCode target word c = specMisplaced target word c := by
  rw [misplacedCode, specMisplaced, extraCode_eq_specExtra]

theorem claimState_eq_of_guess (target word : List Char) (c : Char) (i : Nat)
    (hi : word[i]? = some c) :
    claimState target word c i =
      (if target[i]? = some c then CharState.CorrectPosition
       else if i ∈ misplacedCode target word c then CharState.IncorrectPosition
       else CharState.NotFound) := by
  have hlt : i < word.length := (List.getElem?_eq_some.mp hi).1
  have hGc : i ∈ char_positions word c := mem_char_positions.mpr ⟨hlt, hi⟩
  rw [claimState, misplacedCode_eq_specMisplaced]
  by_cases hT : target[i]? = some c
  · have hTc : i ∈ char_positions target c :=
      mem_char_positions.mpr ⟨(List.getElem?_eq_some.mp hT).1, hT⟩
    rw [if_pos (mem_specInter.mpr ⟨hTc, hGc⟩), if_pos hT]
  · have hTc : i ∉ char_positions target c := fun h =>
      hT (mem_char_positions.mp h).2
    rw [if_neg (fun h => hTc (mem_specInter.mp h).1), if_neg hT]

/-! ### Pointwise characterization of the evaluator -/

theorem getElem?_compute_guess_result (target word : List Char) (i : Nat)
    (c : Char) (hi : word[i]? = some c) :
    (compute_guess_result target word).char_guesses[i]? =
      some (c, claimState target word c i) := by
  rw [compute_guess_result]
  have hinit : ((word.map (fun ch => (ch, CharState.NotFound)))[i]?) =
      some (c, CharState.NotFound) := by
    rw [List.getElem?_map, hi]
    rfl
  by_cases hc : c ∈ target
  · rw [getElem?_foldl_applyChar_mem target word target.dedup i c hi _
        (by rw [List.length_map]) (List.nodup_dedup target)
        (List.mem_dedup.mpr hc),
      claimState_eq_of_guess target word c i hi, hinit]
    split
    · rfl
    · split <;> rfl
  · have hTnil : char_positions target c = [] := char_positions_eq_nil hc
    rw [getElem?_foldl_applyChar_not_mem target word target.dedup i c hi _
        (fun h => hc (List.mem_dedup.mp h)), hinit]
    have h1 : specInter target word c = [] := by rw [specInter, hTnil]; rfl
    have h2 : specExtra target word c = 0 := by rw [specExtra, hTnil, h1]; rfl
    simp [claimState, h1, specMisplaced, h2]

theorem length_compute_guess_result (target word : List Char) :
    (compute_guess_result target word).char_guesses.length = word.length := by
  rw [compute_guess_result, length_foldl_applyChar, List.length_map]

theorem length_char_positions (w : List Char) (c : Char) :
    (char_positions w c).length = w.count c := by
  induction w with
  | nil => rfl
  | cons x w ih =>
    rw [char_positions, ← List.countP_eq_length_filter, List.length_cons,
      List.range_succ_eq_map, List.countP_cons, List.countP_map,
      List.count_cons]
    have h1 : (List.range w.length).countP
        ((fun i => decide ((x :: w)[i]? = some c)) ∘ Nat.succ) =
        (char_positions w c).length := by
      rw [char_positions, ← List.countP_eq_length_filter]
      apply List.countP_congr
      intro i _
      simp [Function.comp, List.getElem?_cons_succ]
    rw [h1, ih]
    by_cases hx : x = c
    · subst hx
      simp
    · simp [hx, List.getElem?_cons_zero]

theorem compute_guess_result_entries (target word : List Char) :
    (compute_guess_result target word).char_guesses =
      (List.range word.length).map
        (fun i => (word.getD i ' ', claimState target word (word.getD i ' ') i)) := by
  apply List.ext_getElem?
  intro i
  by_cases hi : i < word.length
  · have hw : word[i]? = some (word.getD i ' ') := by
      rw [List.getElem?_eq_getElem hi, List.getD_eq_getElem _ _ hi]
    rw [getElem?_compute_guess_result target word i _ hw, List.getElem?_map]
    simp [List.getElem?_range, hi]
  · rw [List.getElem?_eq_none
        (by rw [length_compute_guess_result]; exact Nat.le_of_not_lt hi),
      List.getElem?_eq_none
        (by rw [List.length_map, List.length_range]; exact Nat.le_of_not_lt hi)]

theorem claimState_correct_iff (target word : List Char) (c : Char) (i : Nat)
    (hi : word[i]? = some c) :
    claimState target word c i = CharState.CorrectPosition ↔
      target[i]? = some c := by
  rw [claimState_eq_of_guess target word c i hi]
  by_cases hT : target[i]? = some c
  · simp [hT]
  · simp only [if_neg hT]
    constructor
    · intro h
      split at h <;> exact absurd h (by simp)
    · intro h
      exact absurd h hT

theorem is_correct_iff_eq (target word : List Char)
    (hlen : word.length = target.length) :
    ((compute_guess_result target word).is_correct = true) ↔ word = target := by
  rw [GuessResult.is_correct, compute_guess_result_entries, List.all_eq_true]
  constructor
  · intro h
    apply List.ext_getElem?
    intro i
    by_cases hi : i < word.length
    · have hw : word[i]? = some (word.getD i ' ') := by
        rw [List.getElem?_eq_getElem hi, List.getD_eq_getElem _ _ hi]
      have hmem : (word.getD i ' ',
          claimState target word (word.getD i ' ') i) ∈
          (List.range word.length).map (fun j => (word.getD j ' ',
            claimState target word (word.getD j ' ') j)) :=
        List.mem_map.mpr ⟨i, List.mem_range.mpr hi, rfl⟩
      have hc : claimState target word (word.getD i ' ') i =
          CharState.CorrectPosition := by simpa using h _ hmem
      exact hw.trans ((claimState_correct_iff target word _ i hw).mp hc).symm
    · rw [List.getElem?_eq_none (Nat.le_of_not_lt hi),
        List.getElem?_eq_none (by rw [← hlen]; exact Nat.le_of_not_lt hi)]
  · intro hwt e he
    rcases List.mem_map.mp he with ⟨i, hir, rfl⟩
    have hi : i < word.length := List.mem_range.mp hir
    have hw : word[i]? = some (word.getD i ' ') := by
      rw [List.getElem?_eq_getElem hi, List.getD_eq_getElem _ _ hi]
    have hT : target[i]? = some (word.getD i ' ') := by
      rw [← hwt]
      exact hw
    have hcs : claimState target word (word.getD i ' ') i =
        CharState.CorrectPosition :=
      (claimState_correct_iff target word _ i hw).mpr hT
    show decide ((word.getD i ' ',
      claimState target word (word.getD i ' ') i).2 =
        CharState.CorrectPosition) = true
    rw [hcs]
    rfl

/-! ### Counting lemmas for character-count conservation -/

theorem countP_or_le (l : List Nat) (p q : Nat → Bool) :
    l.countP (fun a => p a || q a) ≤ l.countP p + l.countP q := by
  induction l with
  | nil => simp
  | cons x xs ih =>
    by_cases hp : p x <;> by_cases hq : q x <;>
      simp [List.countP_cons, hp, hq] <;> omega

theorem filter_partition_length (l : List Nat) (p : Nat → Bool) :
    (l.filter p).length + (l.filter (fun a => ! p a)).length = l.length := by
  induction l with
  | nil => rfl
  | cons x xs ih =>
    by_cases hp : p x <;> simp [List.filter_cons, hp] <;> omega

theorem claimState_scores_iff (target word : List Char) (c : Char) (i : Nat)
    (hw : word[i]? = some c) :
    (claimState target word c i = CharState.CorrectPosition ∨
      claimState target word c i = CharState.IncorrectPosition)
    ↔ (i ∈ interCode target word c ∨ i ∈ misplacedCode target word c) := by
  have hlt : i < word.length := (List.getElem?_eq_some.mp hw).1
  have hGc : i ∈ char_positions word c := mem_char_positions.mpr ⟨hlt, hw⟩
  rw [claimState_eq_of_guess target word c i hw]
  by_cases hT : target[i]? = some c
  · have hTc : i ∈ char_positions target c :=
      mem_char_positions.mpr ⟨(List.getElem?_eq_some.mp hT).1, hT⟩
    simp [hT, mem_interCode.mpr ⟨hGc, hTc⟩]
  · have hint : i ∉ interCode target word c := fun h =>
      hT (mem_char_positions.mp (mem_interCode.mp h).2).2
    by_cases hmis : i ∈ misplacedCode target word c
    · simp [hT, hmis, hint]
    · simp [hT, hmis, hint]

theorem count_result_le (target word : List Char) (c : Char) :
    ((compute_guess_result target word).char_guesses.countP
        (fun e => decide (e.1 = c ∧ (e.2 = CharState.CorrectPosition ∨
          e.2 = CharState.IncorrectPosition))))
      ≤ min (word.count c) (target.count c) := by
  rw [compute_guess_result_entries, List.countP_map]
  have hcongr : (List.range word.length).countP
      ((fun e : CharGuess => decide (e.1 = c ∧
          (e.2 = CharState.CorrectPosition ∨
            e.2 = CharState.IncorrectPosition))) ∘
        (fun i => (word.getD i ' ', claimState target word (word.getD i ' ') i))) =
      (List.range word.length).countP
        (fun i => (decide (i ∈ interCode target word c) ||
            decide (i ∈ misplacedCode target word c)) &&
          decide (word[i]? = some c)) := by
    apply List.countP_congr
    intro i hir
    have hi : i < word.length := List.mem_range.mp hir
    have hw : word[i]? = some (word.getD i ' ') := by
      rw [List.getElem?_eq_getElem hi, List.getD_eq_getElem _ _ hi]
    simp only [Function.comp, decide_eq_true_eq, Bool.and_eq_true,
      Bool.or_eq_true]
    constructor
    · rintro ⟨hgc, hstates⟩
      rw [hgc] at hw hstates
      exact ⟨(claimState_scores_iff target word c i hw).mp hstates, hw⟩
    · rintro ⟨hmem, hwc⟩
      have hgc : word.getD i ' ' = c := by
        rw [hw] at hwc
        injection hwc
      refine ⟨hgc, ?_⟩
      rw [hgc] at hw ⊢
      exact (claimState_scores_iff target word c i hw).mpr hmem
  rw [hcongr, ← List.countP_filter]
  have hGc : (List.range word.length).filter
      (fun i => decide (word[i]? = some c)) = char_positions word c := rfl
  rw [hGc]
  have hA : (char_positions word c).countP
      (fun i => decide (i ∈ interCode target word c)) =
      (interCode target word c).length := by
    rw [List.countP_eq_length_filter]
    congr 1
    have hcg : (char_positions word c).filter
        (fun i => decide (i ∈ interCode target word c)) =
        (char_positions word c).filter
          (fun i => decide (i ∈ char_positions target c)) := by
      apply List.filter_congr
      intro a ha
      exact decide_eq_decide.mpr
        ⟨fun h => (mem_interCode.mp h).2, fun h => mem_interCode.mpr ⟨ha, h⟩⟩
    rw [hcg]
    rfl
  have hB : (char_positions word c).countP
      (fun i => decide (i ∈ misplacedCode target word c)) ≤
      (misplacedCode target word c).length := by
    rw [List.countP_eq_length_filter]
    refine (((nodup_char_positions word c).filter _).subperm ?_).length_le
    intro a ha
    exact of_decide_eq_true (List.mem_filter.mp ha).2
  have hor := countP_or_le (char_positions word c)
    (fun i => decide (i ∈ interCode target word c))
    (fun i => decide (i ∈ misplacedCode target word c))
  have hmin : (misplacedCode target word c).length =
      min (extraCode target word c) (specDiff target word c).length := by
    rw [misplacedCode, List.length_take]
    omega
  have hint_le : (interCode target word c).length ≤
      (char_positions target c).length := by
    rw [← length_specInter_eq_interCode, specInter]
    exact List.length_filter_le _ _
  have hpart : (interCode target word c).length +
      (specDiff target word c).length = (char_positions word c).length := by
    have hnegp : (char_positions word c).filter
        (fun p => decide (p ∉ char_positions target c)) =
        (char_positions word c).filter
          (fun p => ! decide (p ∈ char_positions target c)) := by
      apply List.filter_congr
      intro a _
      simp
    rw [interCode, specDiff, hnegp]
    exact filter_partition_length _ _
  have hTL : (char_positions target c).length = target.count c :=
    length_char_positions target c
  have hGL : (char_positions word c).length = word.count c :=
    length_char_positions word c
  rw [extraCode] at hmin
  omega

/-! ### Keyboard view lemmas -/

theorem get_assocInsert_self (m : List (Char × CharState)) (ch : Char)
    (s : CharState) :
    KeyboardView.get ⟨assocInsert m ch s⟩ ch = some s := by
  induction m with
  | nil => simp [KeyboardView.get, assocInsert, List.find?]
  | cons p rest ih =>
    obtain ⟨k, v⟩ := p
    by_cases h : k = ch
    · simp [assocInsert, h, KeyboardView.get, List.find?_cons]
    · simp only [assocInsert, if_neg h]
      simp only [KeyboardView.get, List.find?_cons] at ih ⊢
      simp [h, ih]

theorem get_assocInsert_ne (m : List (Char × CharState)) (ch c : Char)
    (s : CharState) (h : ch ≠ c) :
    KeyboardView.get ⟨assocInsert m ch s⟩ c = KeyboardView.get ⟨m⟩ c := by
  induction m with
  | nil => simp [KeyboardView.get, assocInsert, List.find?, h]
  | cons p rest ih =>
    obtain ⟨k, v⟩ := p
    by_cases hk : k = ch
    · subst hk
      simp [assocInsert, KeyboardView.get, List.find?_cons, h]
    · simp only [assocInsert, if_neg hk]
      simp only [KeyboardView.get, List.find?_cons] at ih ⊢
      by_cases hkc : k = c
      · simp [hkc]
      · simp [hkc, ih]

theorem record_guess_spec (kv : KeyboardView) (c : Char) (s prev : CharState)
    (h : kv.get c = some prev) :
    kv.record_guess (c, s) =
      (if prev = CharState.NotFound ∧ s ≠ CharState.NotFound then
        Except.error "invalid state"
      else Except.ok ⟨assocInsert kv.keymap c (prev.max s)⟩) := by
  have h1 : kv.record_guess (c, s) =
      (if prev = CharState.NotFound ∧ prev ≠ s then
        Except.error "invalid state"
      else Except.ok ⟨assocInsert kv.keymap c (prev.max s)⟩) := by
    unfold KeyboardView.record_guess
    rw [show kv.get (c, s).1 = some prev from h]
  rw [h1]
  by_cases hp : prev = CharState.NotFound
  · subst hp
    by_cases hs : s = CharState.NotFound
    · subst hs
      simp
    · simp [hs, (Ne.symm hs : CharState.NotFound ≠ s)]
  · simp [hp]

theorem CharState.toNat_le_max_left (a b : CharState) :
    a.toNat ≤ (CharState.max a b).toNat := by
  cases a <;> cases b <;> decide

theorem CharState.max_correct_left (b : CharState) :
    CharState.max CharState.CorrectPosition b = CharState.CorrectPosition := by
  cases b <;> rfl

theorem record_guess_mono (kv kv2 : KeyboardView) (cg : CharGuess)
    (h : kv.record_guess cg = .ok kv2) (c : Char) (s : CharState)
    (hc : kv.get c = some s) :
    ∃ t, kv2.get c = some t ∧ s.toNat ≤ t.toNat ∧
      (s = CharState.CorrectPosition → t = CharState.CorrectPosition) := by
  by_cases hch : cg.1 = c
  · have hg : kv.get cg.1 = some s := by rw [hch]; exact hc
    have hred : kv.record_guess cg =
        (if s = CharState.NotFound ∧ s ≠ cg.2 then
          Except.error "invalid state"
        else Except.ok ⟨assocInsert kv.keymap cg.1 (s.max cg.2)⟩) := by
      unfold KeyboardView.record_guess
      rw [hg]
    rw [hred] at h
    split at h
    · cases h
    · injection h with h2
      refine ⟨s.max cg.2, ?_, CharState.toNat_le_max_left s cg.2, ?_⟩
      · rw [← h2, ← hch]
        exact get_assocInsert_self kv.keymap cg.1 (s.max cg.2)
      · intro hC
        rw [hC]
        exact CharState.max_correct_left cg.2
  · cases hg : kv.get cg.1 with
    | none =>
      have hred : kv.record_guess cg =
          .ok ⟨assocInsert kv.keymap cg.1 cg.2⟩ := by
        unfold KeyboardView.record_guess
        rw [hg]
      rw [hred] at h
      injection h with h2
      refine ⟨s, ?_, le_refl _, fun hC => hC⟩
      rw [← h2]
      exact (get_assocInsert_ne kv.keymap cg.1 c cg.2 hch).trans hc
    | some cs =>
      have hred : kv.record_guess cg =
          (if cs = CharState.NotFound ∧ cs ≠ cg.2 then
            Except.error "invalid state"
          else Except.ok ⟨assocInsert kv.keymap cg.1 (cs.max cg.2)⟩) := by
        unfold KeyboardView.record_guess
        rw [hg]
      rw [hred] at h
      split at h
      · cases h
      · injection h with h2
        refine ⟨s, ?_, le_refl _, fun hC => hC⟩
        rw [← h2]
        exact (get_assocInsert_ne kv.keymap cg.1 c _ hch).trans hc

theorem recordAll_mono (cgs : List CharGuess) :
    ∀ kv kv2 : KeyboardView, recordAll kv cgs = .ok kv2 →
      ∀ (c : Char) (s : CharState), kv.get c = some s →
      ∃ t, kv2.get c = some t ∧ s.toNat ≤ t.toNat ∧
        (s = CharState.CorrectPosition → t = CharState.CorrectPosition) := by
  induction cgs with
  | nil =>
    intro kv kv2 h c s hc
    rw [recordAll] at h
    injection h with h2
    exact ⟨s, h2 ▸ hc, le_refl _, fun hC => hC⟩
  | cons cg rest ih =>
    intro kv kv2 h c s hc
    rw [recordAll] at h
    cases hrec : kv.record_guess cg with
    | error e =>
      rw [hrec] at h
      cases h
    | ok kvm =>
      rw [hrec] at h
      obtain ⟨t1, ht1, hle1, hcp1⟩ := record_guess_mono kv kvm cg hrec c s hc
      obtain ⟨t2, ht2, hle2, hcp2⟩ := ih kvm kv2 h c t1 ht1
      exact ⟨t2, ht2, le_trans hle1 hle2, fun hC => hcp2 (hcp1 hC)⟩

/-! ### Game session lemmas -/

theorem allow_more_guesses_iff (g : Game) :
    g.allow_more_guesses = true ↔
      g.guess_results.length < g.max_guesses ∧ g.state = GameState.Playing := by
  simp [Game.allow_more_guesses]

theorem contains_eq_false_of_not_mem (d : Dictionary) (w : List Char)
    (h : w ∉ d.wordset) : d.contains w = false := by
  rw [Dictionary.contains]
  simp [h]

theorem guess_word_not_allowed (g : Game) (word : List Char)
    (h : g.allow_more_guesses = false) :
    g.guess_word word = .error "no more guesses allowed" := by
  unfold Game.guess_word
  rw [h]
  rfl

theorem guess_word_invalid_word (g : Game) (word : List Char)
    (hA : g.allow_more_guesses = true) (hw : g.dict.contains word = false) :
    g.guess_word word = .ok (none, g) := by
  unfold Game.guess_word
  rw [hA, hw]
  rfl

theorem guess_word_record_error (g : Game) (word : List Char) (e : String)
    (hA : g.allow_more_guesses = true) (hw : g.dict.contains word = true)
    (hrec : recordAll g.keyboard_view
      (compute_guess_result g.target_word word).char_guesses = .error e) :
    g.guess_word word = .error e := by
  unfold Game.guess_word
  simp [hA, hw, hrec]

theorem guess_word_accepted_eq (g : Game) (word : List Char)
    (kv : KeyboardView)
    (hA : g.allow_more_guesses = true) (hw : g.dict.contains word = true)
    (hrec : recordAll g.keyboard_view
      (compute_guess_result g.target_word word).char_guesses = .ok kv) :
    g.guess_word word =
      .ok (some (compute_guess_result g.target_word word),
        if (compute_guess_result g.target_word word).is_correct then
          { afterGuess g kv (compute_guess_result g.target_word word) with
              state := GameState.Win }
        else if ¬ (afterGuess g kv
            (compute_guess_result g.target_word word)).allow_more_guesses then
          { afterGuess g kv (compute_guess_result g.target_word word) with
              state := GameState.Lose }
        else afterGuess g kv (compute_guess_result g.target_word word)) := by
  unfold Game.guess_word afterGuess
  simp [hA, hw, hrec]

theorem guess_word_accepted_spec (g : Game) (word : List Char)
    (r : GuessResult) (g2 : Game)
    (h : g.guess_word word = .ok (some r, g2)) :
    r = compute_guess_result g.target_word word ∧
    g2.guess_results = g.guess_results ++ [r] ∧
    g2.state = (if r.is_correct then GameState.Win
      else if g.guess_results.length + 1 = g.max_guesses then GameState.Lose
      else GameState.Playing) := by
  by_cases hA : g.allow_more_guesses = true
  case neg =>
    rw [guess_word_not_allowed g word (Bool.eq_false_iff.mpr hA)] at h
    cases h
  by_cases hw : g.dict.contains word = true
  case neg =>
    rw [guess_word_invalid_word g word hA (Bool.eq_false_iff.mpr hw)] at h
    simp at h
  obtain ⟨hlt, hpl⟩ := (allow_more_guesses_iff g).mp hA
  cases hrec : recordAll g.keyboard_view
      (compute_guess_result g.target_word word).char_guesses with
  | error e =>
    rw [guess_word_record_error g word e hA hw hrec] at h
    cases h
  | ok kv =>
    rw [guess_word_accepted_eq g word kv hA hw hrec] at h
    injection h with h2
    rw [Prod.mk.injEq] at h2
    obtain ⟨h3, h4⟩ := h2
    injection h3 with h5
    subst h5
    subst h4
    have hres : ∀ s : GameState,
        ({ afterGuess g kv (compute_guess_result g.target_word word) with
            state := s } : Game).guess_results =
          g.guess_results ++ [compute_guess_result g.target_word word] :=
      fun s => rfl
    have hafter : (afterGuess g kv
        (compute_guess_result g.target_word word)).guess_results =
        g.guess_results ++ [compute_guess_result g.target_word word] := rfl
    refine ⟨rfl, ?_, ?_⟩
    · split
      · exact hres _
      · split
        · exact hres _
        · exact hafter
    · by_cases hic : (compute_guess_result g.target_word word).is_correct = true
      · rw [if_pos hic, if_pos hic]
      · rw [if_neg hic, if_neg hic]
        have hallg1 : (afterGuess g kv
            (compute_guess_result g.target_word word)).allow_more_guesses
            = decide (g.guess_results.length + 1 < g.max_guesses) := by
          simp [Game.allow_more_guesses, afterGuess, hpl]
        by_cases heq : g.guess_results.length + 1 = g.max_guesses
        · have hnot : ¬ ((afterGuess g kv
              (compute_guess_result g.target_word word)).allow_more_guesses
                = true) := by
            rw [hallg1]
            simp
            omega
          rw [if_pos hnot, if_pos heq]
        · have hyes : ¬ ¬ ((afterGuess g kv
              (compute_guess_result g.target_word word)).allow_more_guesses
                = true) := by
            rw [hallg1]
            simp
            omega
          rw [if_neg hyes, if_neg heq]
          exact hpl

/-! ### Claim theorems -/

/-- C1: for every guess and target of equal length, the evaluator's result at
each position `i` carries the guess character `c` there together with exactly
the state the claim describes: CorrectPosition on `T_c ∩ G_c`, Misplaced on
the first `min(extra, |G_c \ T_c|)` positions of `G_c \ T_c` in ascending
position order with `extra = |T_c| - |T_c ∩ G_c|`, and the Absent (NotFound)
default everywhere else; in particular surplus guess copies of a character
leave the rightmost occurrences Absent. -/
theorem claim_C1_evaluator_pointwise (target word : List Char)
    (hlen : word.length = target.length) (i : Nat) (hi : i < word.length) :
    (compute_guess_result target word).char_guesses[i]? =
      some (word.getD i ' ', claimState target word (word.getD i ' ') i) := by
  have hw : word[i]? = some (word.getD i ' ') := by
    rw [List.getElem?_eq_getElem hi, List.getD_eq_getElem _ _ hi]
  exact getElem?_compute_guess_result target word i _ hw

/-- Witness for C1 at target "colon", guess "ovolo", position 0. -/
theorem claim_C1_witness :
    (['o','v','o','l','o'] : List Char).length =
        (['c','o','l','o','n'] : List Char).length ∧
      (0 : Nat) < (['o','v','o','l','o'] : List Char).length ∧
      (compute_guess_result ['c','o','l','o','n']
          ['o','v','o','l','o']).char_guesses[(0 : Nat)]? =
        some ((['o','v','o','l','o'] : List Char).getD 0 ' ',
          claimState ['c','o','l','o','n'] ['o','v','o','l','o']
            ((['o','v','o','l','o'] : List Char).getD 0 ' ') 0) :=
  ⟨rfl, by decide, claim_C1_evaluator_pointwise ['c','o','l','o','n']
    ['o','v','o','l','o'] rfl 0 (by decide)⟩

/-- C2 (code bug): the keyboard assertion is reachable from legitimate play.
With dictionary {xoo, ooo}, target "xoo" and the accepted dictionary guess
"ooo", the evaluator yields [(o, NotFound), (o, CorrectPosition),
(o, CorrectPosition)], and recording these entries in order makes
`KeyboardView::record_guess` hit its panic branch (previous state NotFound,
new state CorrectPosition for the same character within one guess), so
`Game::guess_word` fails where the claim says the failure is unreachable. -/
theorem claim_C2_keyboard_panic_reachable :
    Game.new xooDict ['x','o','o'] 6 = .ok xooGame ∧
    xooDict.contains ['o','o','o'] = true ∧
    xooGame.allow_more_guesses = true ∧
    (compute_guess_result ['x','o','o'] ['o','o','o']).char_guesses =
      [('o', CharState.NotFound), ('o', CharState.CorrectPosition),
        ('o', CharState.CorrectPosition)] ∧
    xooGame.guess_word ['o','o','o'] = .error "invalid state" :=
  ⟨rfl, rfl, rfl, rfl, rfl⟩

/-- C3 counterexample: with IncorrectPosition recorded for 'a' and a newly
reported Absent (NotFound) state, the claim requires the call to fail with
the inconsistency error, but `record_guess` succeeds and keeps
max(prev, s) = IncorrectPosition. -/
theorem claim_C3_counterexample :
    KeyboardView.get ⟨[('a', CharState.IncorrectPosition)]⟩ 'a' =
        some CharState.IncorrectPosition ∧
      CharState.IncorrectPosition ≠ CharState.NotFound ∧
      KeyboardView.record_guess ⟨[('a', CharState.IncorrectPosition)]⟩
          ('a', CharState.NotFound) =
        .ok ⟨[('a', CharState.IncorrectPosition)]⟩ :=
  ⟨rfl, by decide, rfl⟩

/-- C3 (amended): `record_guess` on a character with recorded state `prev`
fails iff `prev = Absent` and the new state is non-Absent (the opposite
direction — `prev` non-Absent and the new state Absent — is accepted),
and in every non-failing case it records max(prev, s) under
Absent < Misplaced < CorrectPosition. -/
theorem claim_C3_amended (kv : KeyboardView) (c : Char) (prev s : CharState)
    (h : kv.get c = some prev) :
    ((∃ e, kv.record_guess (c, s) = .error e) ↔
      (prev = CharState.NotFound ∧ s ≠ CharState.NotFound)) ∧
    (∀ kv2, kv.record_guess (c, s) = .ok kv2 →
      kv2.get c = some (prev.max s)) := by
  have hrw := record_guess_spec kv c s prev h
  constructor
  · constructor
    · rintro ⟨e, he⟩
      rw [hrw] at he
      by_cases hcond : prev = CharState.NotFound ∧ s ≠ CharState.NotFound
      · exact hcond
      · rw [if_neg hcond] at he
        cases he
    · intro hcond
      exact ⟨"invalid state", by rw [hrw, if_pos hcond]⟩
  · intro kv2 hok
    rw [hrw] at hok
    by_cases hcond : prev = CharState.NotFound ∧ s ≠ CharState.NotFound
    · rw [if_pos hcond] at hok
      cases hok
    · rw [if_neg hcond] at hok
      injection hok with h2
      rw [← h2]
      exact get_assocInsert_self kv.keymap c (prev.max s)

/-- Witness for the amended C3 with prev = IncorrectPosition, s = NotFound. -/
theorem claim_C3_amended_witness :
    ((∃ e, KeyboardView.record_guess ⟨[('b', CharState.IncorrectPosition)]⟩
        ('b', CharState.NotFound) = .error e) ↔
      (CharState.IncorrectPosition = CharState.NotFound ∧
        CharState.NotFound ≠ CharState.NotFound)) ∧
    (∀ kv2, KeyboardView.record_guess ⟨[('b', CharState.IncorrectPosition)]⟩
        ('b', CharState.NotFound) = .ok kv2 →
      kv2.get 'b' =
        some (CharState.IncorrectPosition.max CharState.NotFound)) :=
  claim_C3_amended ⟨[('b', CharState.IncorrectPosition)]⟩ 'b'
    CharState.IncorrectPosition CharState.NotFound rfl

/-- C4: in a Playing state with attempts remaining, a guess that is not a
member of the word set yields the rejection outcome `none` and returns the
session unchanged — state, guess history, keyboard view and attempts used
are all identical, as the very same `Game` value is returned. -/
theorem claim_C4_invalid_guess_no_mutation (g : Game) (word : List Char)
    (hpl : g.state = GameState.Playing)
    (hatt : g.guess_results.length < g.max_guesses)
    (hw : word ∉ g.dict.wordset) :
    g.guess_word word = .ok (none, g) :=
  guess_word_invalid_word g word
    ((allow_more_guesses_iff g).mpr ⟨hatt, hpl⟩)
    (contains_eq_false_of_not_mem g.dict word hw)

/-- Witness for C4: "abc" is not in the {rat, dog} dictionary. -/
theorem claim_C4_witness :
    dogGame.state = GameState.Playing ∧
    dogGame.guess_results.length < dogGame.max_guesses ∧
    (['a','b','c'] : List Char) ∉ dogGame.dict.wordset ∧
    dogGame.guess_word ['a','b','c'] = .ok (none, dogGame) :=
  ⟨rfl, by decide, by decide, claim_C4_invalid_guess_no_mutation dogGame
    ['a','b','c'] rfl (by decide) (by decide)⟩

/-- C5: after an accepted guess the attempt count grows by one and the state
becomes Win iff the result's isWin holds; otherwise Lose iff the number of
accepted guesses after this one equals the maximum attempt count; otherwise
Playing.  In particular a winning guess on the final allowed attempt yields
Win, since the isWin test comes first. -/
theorem claim_C5_state_transition (g : Game) (word : List Char)
    (r : GuessResult) (g2 : Game)
    (h : g.guess_word word = .ok (some r, g2)) :
    g2.guess_results.length = g.guess_results.length + 1 ∧
    g2.state = (if r.is_correct then GameState.Win
      else if g2.guess_results.length = g.max_guesses then GameState.Lose
      else GameState.Playing) := by
  obtain ⟨hr, hres, hstate⟩ := guess_word_accepted_spec g word r g2 h
  have hlen : g2.guess_results.length = g.guess_results.length + 1 := by
    rw [hres]
    simp
  refine ⟨hlen, ?_⟩
  rw [hstate, hlen]

/-- Witness for C5: guessing "rat" against "dog" stays Playing. -/
theorem claim_C5_witness :
    dogGame.guess_word ['r','a','t'] = .ok (some ratResult, dogGameAfterRat) ∧
    (dogGameAfterRat.guess_results.length =
        dogGame.guess_results.length + 1 ∧
      dogGameAfterRat.state = (if ratResult.is_correct then GameState.Win
        else if dogGameAfterRat.guess_results.length = dogGame.max_guesses then
          GameState.Lose
        else GameState.Playing)) :=
  ⟨rfl, claim_C5_state_transition dogGame ['r','a','t'] ratResult
    dogGameAfterRat rfl⟩

/-- C6: submitting when the state is not Playing, or when the accepted-guess
count has reached the maximum, fails with the exhausted-attempts error for
any guess string; the failing call leaves the session untouched, so a retry
on the same session fails identically (the conclusion holds for every
word). -/
theorem claim_C6_no_attempts_remaining (g : Game) (word : List Char)
    (h : g.state ≠ GameState.Playing ∨
      g.max_guesses ≤ g.guess_results.length) :
    g.guess_word word = .error "no more guesses allowed" := by
  apply guess_word_not_allowed
  rw [Game.allow_more_guesses]
  rcases h with h | h
  · simp [h]
  · have hnl : ¬ (g.guess_results.length < g.max_guesses) := Nat.not_lt.mpr h
    simp [hnl]

/-- Witness for C6: a session already in the Win state rejects any guess. -/
theorem claim_C6_witness :
    (wonGame.state ≠ GameState.Playing ∨
      wonGame.max_guesses ≤ wonGame.guess_results.length) ∧
    wonGame.guess_word ['r','a','t'] = .error "no more guesses allowed" :=
  ⟨Or.inl (by decide), claim_C6_no_attempts_remaining wonGame ['r','a','t']
    (Or.inl (by decide))⟩

/-- C7: for any character c, the number of feedback entries that carry c with
state CorrectPosition or Misplaced is at most min(count of c in the guess,
count of c in the target). -/
theorem claim_C7_count_conservation (target word : List Char)
    (hlen : word.length = target.length) (c : Char) :
    ((compute_guess_result target word).char_guesses.countP
        (fun e => decide (e.1 = c ∧ (e.2 = CharState.CorrectPosition ∨
          e.2 = CharState.IncorrectPosition))))
      ≤ min (word.count c) (target.count c) :=
  count_result_le target word c

/-- Witness for C7 at target "colon", guess "ovolo", character 'o'. -/
theorem claim_C7_witness :
    (['o','v','o','l','o'] : List Char).length =
        (['c','o','l','o','n'] : List Char).length ∧
    ((compute_guess_result ['c','o','l','o','n']
        ['o','v','o','l','o']).char_guesses.countP
        (fun e => decide (e.1 = 'o' ∧ (e.2 = CharState.CorrectPosition ∨
          e.2 = CharState.IncorrectPosition))))
      ≤ min ((['o','v','o','l','o'] : List Char).count 'o')
          ((['c','o','l','o','n'] : List Char).count 'o') :=
  ⟨rfl, claim_C7_count_conservation ['c','o','l','o','n']
    ['o','v','o','l','o'] rfl 'o'⟩

/-- C8: for equal-length guess and target, the isWin predicate of the
evaluation (all positions CorrectPosition) holds iff the guess equals the
target; in particular `evaluate(t, t)` assigns CorrectPosition at every
position for every target `t`. -/
theorem claim_C8_is_win_iff_eq (target word : List Char)
    (hlen : word.length = target.length) :
    ((compute_guess_result target word).is_correct = true ↔ word = target) ∧
    ∀ e ∈ (compute_guess_result target target).char_guesses,
      e.2 = CharState.CorrectPosition := by
  refine ⟨is_correct_iff_eq target word hlen, ?_⟩
  have hself : (compute_guess_result target target).is_correct = true :=
    (is_correct_iff_eq target target rfl).mpr rfl
  rw [GuessResult.is_correct, List.all_eq_true] at hself
  intro e he
  simpa using hself e he

/-- Witness for C8 at guess = target = "dog". -/
theorem claim_C8_witness :
    ((compute_guess_result ['d','o','g'] ['d','o','g']).is_correct = true ↔
      (['d','o','g'] : List Char) = ['d','o','g']) ∧
    ∀ e ∈ (compute_guess_result ['d','o','g'] ['d','o','g']).char_guesses,
      e.2 = CharState.CorrectPosition :=
  claim_C8_is_win_iff_eq ['d','o','g'] ['d','o','g'] rfl

/-- C9: along any sequence of recorded feedback entries that completes
without failure, the state the keyboard view holds for a character never
decreases under NotFound < IncorrectPosition < CorrectPosition (compared via
the Rust discriminants), and once it is CorrectPosition it stays
CorrectPosition; the statement quantifies over every starting view, hence
over every segment of a longer recording sequence. -/
theorem claim_C9_keyboard_monotone (cgs : List CharGuess)
    (kv kv2 : KeyboardView) (h : recordAll kv cgs = .ok kv2)
    (c : Char) (s : CharState) (hc : kv.get c = some s) :
    ∃ t, kv2.get c = some t ∧ s.toNat ≤ t.toNat ∧
      (s = CharState.CorrectPosition → t = CharState.CorrectPosition) :=
  recordAll_mono cgs kv kv2 h c s hc

/-- Witness for C9: IncorrectPosition upgraded to CorrectPosition. -/
theorem claim_C9_witness :
    recordAll ⟨[('a', CharState.IncorrectPosition)]⟩
        [('a', CharState.CorrectPosition)] =
      .ok ⟨[('a', CharState.CorrectPosition)]⟩ ∧
    KeyboardView.get ⟨[('a', CharState.IncorrectPosition)]⟩ 'a' =
      some CharState.IncorrectPosition ∧
    ∃ t, KeyboardView.get ⟨[('a', CharState.CorrectPosition)]⟩ 'a' =
        some t ∧
      CharState.IncorrectPosition.toNat ≤ t.toNat ∧
      (CharState.IncorrectPosition = CharState.CorrectPosition →
        t = CharState.CorrectPosition) :=
  ⟨rfl, rfl, claim_C9_keyboard_monotone [('a', CharState.CorrectPosition)]
    ⟨[('a', CharState.IncorrectPosition)]⟩
    ⟨[('a', CharState.CorrectPosition)]⟩ rfl 'a'
    CharState.IncorrectPosition rfl⟩

/-- C10: dictionary validation is exact and case-sensitive membership: a
word not literally (character-for-character) in the word set is rejected
with the unchanged session, and is never accepted; the witness instantiates
this at a guess differing from a dictionary word only in letter case. -/
theorem claim_C10_exact_membership (g : Game) (word : List Char)
    (hA : g.allow_more_guesses = true) (hw : word ∉ g.dict.wordset) :
    g.guess_word word = .ok (none, g) ∧
    ∀ (r : GuessResult) (g2 : Game),
      g.guess_word word ≠ .ok (some r, g2) := by
  have h1 : g.guess_word word = .ok (none, g) :=
    guess_word_invalid_word g word hA
      (contains_eq_false_of_not_mem g.dict word hw)
  refine ⟨h1, ?_⟩
  intro r g2 hcontra
  rw [h1] at hcontra
  simp at hcontra

/-- Witness for C10: "rat" is in the dictionary but "Rat" is rejected. -/
theorem claim_C10_witness :
    (['r','a','t'] : List Char) ∈ dogGame.dict.wordset ∧
    (['R','a','t'] : List Char) ∉ dogGame.dict.wordset ∧
    (dogGame.guess_word ['R','a','t'] = .ok (none, dogGame) ∧
      ∀ (r : GuessResult) (g2 : Game),
        dogGame.guess_word ['R','a','t'] ≠ .ok (some r, g2)) :=
  ⟨by decide, by decide, claim_C10_exact_membership dogGame ['R','a','t']
    rfl (by decide)⟩
